import Mathlib

/-!
Verification of the write-path log client (package `slsh`): request signing,
LZ4 literal-fallback compression, protobuf batch encoding, response
validation, and the `WriteMessage` pipeline, shallowly embedded from
`writer.go`.  Bytes are modelled as `Nat`, Go byte slices as `List Nat`,
Go strings as Lean `String` (ASCII model: `Char.toNat` is the byte value;
every string the claims touch is ASCII).
-/

namespace Slsh

/-! ## Headers (`net/http.Header`, a map from key to value list)

A Go header map is modelled as an association list with pairwise distinct
keys left implicit (none of the results below needs the distinctness).
`headerGet` follows `net/http.Header.Get`, which canonicalises the lookup
key with `textproto.CanonicalMIMEHeaderKey` and returns the first value. -/

def Header : Type := List (String × List String)

instance : DecidableEq Header := by
  unfold Header
  infer_instance

/-- `validHeaderFieldByte` of `net/textproto`: letters, digits and the token
characters. The odd characters are compared by code point. -/
def validHeaderFieldChar (c : Char) : Bool :=
  c.isAlphanum ||
    (c.toNat ∈ [33, 35, 36, 37, 38, 39, 42, 43, 45, 46, 94, 95, 96, 124, 126])

def upChar (c : Char) : Char :=
  if 97 ≤ c.toNat && c.toNat ≤ 122 then Char.ofNat (c.toNat - 32) else c

def lowChar (c : Char) : Char :=
  if 65 ≤ c.toNat && c.toNat ≤ 90 then Char.ofNat (c.toNat + 32) else c

/-- The per-byte loop of `textproto.canonicalMIMEHeaderKey`: uppercase at the
start and after a hyphen, lowercase elsewhere. -/
def canonFold : List Char → Bool → List Char
  | [], _ => []
  | c :: cs, upper =>
    let c2 := if upper then upChar c else lowChar c
    c2 :: canonFold cs (c2 = '-')

/-- `textproto.CanonicalMIMEHeaderKey`: keys containing a byte that is not a
valid header-field byte are returned unchanged. -/
def canonKey (s : String) : String :=
  if s.data.all validHeaderFieldChar then ⟨canonFold s.data true⟩ else s

/-- `http.Header.Get`: canonicalise the key, return the first value of the
matching entry, or `""` when the entry is absent or has no values. -/
def headerGet (h : Header) (key : String) : String :=
  match List.find? (fun kv => kv.1 = canonKey key) h with
  | some kv =>
    match kv.2 with
    | [] => ""
    | v :: _ => v
  | none => ""

/-! ## The signature canonical string (`signature`, writer.go) -/

/-- Go `strings.HasPrefix`, on the character level (for valid UTF-8 the
byte-level and character-level prefix relations coincide). -/
def charsStarts : List Char → List Char → Bool
  | _, [] => true
  | [], _ :: _ => false
  | a :: as, b :: bs => decide (a = b) && charsStarts as bs

def strStarts (s pre : String) : Bool := charsStarts s.data pre.data

/-- Lexicographic order on code points; Go compares strings byte-wise, which
for valid UTF-8 agrees with code-point order. -/
def charsLe : List Char → List Char → Bool
  | [], _ => true
  | _ :: _, [] => false
  | a :: as, b :: bs =>
    if a.toNat = b.toNat then charsLe as bs else decide (a.toNat < b.toNat)

def strLe (a b : String) : Prop := charsLe a.data b.data = true

instance : DecidableRel strLe := fun _ _ => instDecidableEqBool _ _

theorem char_toNat_inj {a b : Char} (h : a.toNat = b.toNat) : a = b := by
  have ha := Char.ofNat_toNat a
  have hb := Char.ofNat_toNat b
  rw [← ha, ← hb, h]

theorem charsLe_total (a b : List Char) : charsLe a b = true ∨ charsLe b a = true := by
  induction a generalizing b with
  | nil => left; rfl
  | cons x xs ih =>
    cases b with
    | nil => right; rfl
    | cons y ys =>
      by_cases hxy : x.toNat = y.toNat
      · simpa [charsLe, hxy] using ih ys
      · rcases Nat.lt_or_ge x.toNat y.toNat with hlt | hge
        · left; simp [charsLe, hxy, hlt]
        · right
          have hlt : y.toNat < x.toNat := lt_of_le_of_ne hge (Ne.symm hxy)
          have hne : y.toNat ≠ x.toNat := by omega
          simp [charsLe, hne, hlt]

theorem charsLe_trans {a b c : List Char} (hab : charsLe a b = true)
    (hbc : charsLe b c = true) : charsLe a c = true := by
  induction a generalizing b c with
  | nil => rfl
  | cons x xs ih =>
    cases b with
    | nil => simp [charsLe] at hab
    | cons y ys =>
      cases c with
      | nil => simp [charsLe] at hbc
      | cons z zs =>
        by_cases hxy : x.toNat = y.toNat <;> by_cases hyz : y.toNat = z.toNat
        · simp only [charsLe, if_pos hxy] at hab
          simp only [charsLe, if_pos hyz] at hbc
          simp only [charsLe, if_pos (hxy.trans hyz)]
          exact ih hab hbc
        · simp only [charsLe, if_neg hyz, decide_eq_true_eq] at hbc
          simp only [charsLe, if_neg (show x.toNat ≠ z.toNat by omega),
            decide_eq_true_eq]
          omega
        · simp only [charsLe, if_neg hxy, decide_eq_true_eq] at hab
          simp only [charsLe, if_neg (show x.toNat ≠ z.toNat by omega),
            decide_eq_true_eq]
          omega
        · simp only [charsLe, if_neg hxy, decide_eq_true_eq] at hab
          simp only [charsLe, if_neg hyz, decide_eq_true_eq] at hbc
          simp only [charsLe, if_neg (show x.toNat ≠ z.toNat by omega),
            decide_eq_true_eq]
          omega

theorem charsLe_antisymm {a b : List Char} (hab : charsLe a b = true)
    (hba : charsLe b a = true) : a = b := by
  induction a generalizing b with
  | nil =>
    cases b with
    | nil => rfl
    | cons y ys => simp [charsLe] at hba
  | cons x xs ih =>
    cases b with
    | nil => simp [charsLe] at hab
    | cons y ys =>
      by_cases hxy : x.toNat = y.toNat
      · simp only [charsLe, if_pos hxy, if_pos hxy.symm] at hab hba
        exact congrArg₂ (· :: ·) (char_toNat_inj hxy) (ih hab hba)
      · simp only [charsLe, if_neg hxy, decide_eq_true_eq] at hab
        simp only [charsLe, if_neg (show y.toNat ≠ x.toNat by omega),
          decide_eq_true_eq] at hba
        omega

instance : IsTotal String strLe := ⟨fun a b => charsLe_total a.data b.data⟩

instance : IsTrans String strLe := ⟨fun _ _ _ => charsLe_trans⟩

instance : IsAntisymm String strLe :=
  ⟨fun a b hab hba => by
    cases a; cases b
    exact congrArg String.mk (charsLe_antisymm hab hba)⟩

/-- `strings.Join` with a separator. -/
def joinSep (sep : String) : List String → String
  | [] => ""
  | [s] => s
  | s :: rest => s ++ sep ++ joinSep sep rest

/-- Go `strings.TrimSpace`, restricted to the ASCII whitespace bytes
(space, TAB, LF, VT, FF, CR); the strings in this protocol are ASCII. -/
def isSpaceChar (c : Char) : Bool := c.toNat ∈ [32, 9, 10, 11, 12, 13]

def trimSpace (s : String) : String :=
  ⟨((s.data.dropWhile isSpaceChar).reverse.dropWhile isSpaceChar).reverse⟩

/-- Go `strings.ToLower`, ASCII model. -/
def toLowerStr (s : String) : String := ⟨s.data.map lowChar⟩

/-- The predicate of the `for k, v := range req.Header` loop in `signature`:
non-empty value list and a key starting (case-sensitively, via
`strings.HasPrefix`) with one of the vendor tags. -/
def isVendorHeader (kv : String × List String) : Bool :=
  0 < kv.2.length && (strStarts kv.1 "X-Log-" || strStarts kv.1 "X-Acs-")

/-- Rendering of one canonicalized custom header:
`fmt.Sprintf* with lowercase name, colon, trimmed comma-join of the values. -/
def renderSection (kv : String × List String) : String :=
  toLowerStr kv.1 ++ ":" ++ trimSpace (joinSep "," kv.2)

/-- The section-collecting loop of `signature`, in header iteration order. -/
def vendorSections (h : Header) : List String :=
  List.foldl
    (fun acc kv => if isVendorHeader kv then acc ++ [renderSection kv] else acc)
    [] h

/-- `sort.Strings`. -/
def sortStrings (l : List String) : List String := List.insertionSort strLe l

/-- The HTTP request as `signature` sees it: method, header map, and the URL
split into its escaped path and raw query (the query is not consulted). -/
structure Request where
  method : String
  header : Header
  escapedPath : String
  rawQuery : String

/-- The canonical string signed by `signature` (writer.go lines 171-208):
method, three fetched header values, the sorted vendor sections, and the
escaped path, joined by newlines. -/
def signString (req : Request) : String :=
  joinSep "\n"
    ([req.method, headerGet req.header "Content-MD5",
      headerGet req.header "Content-Type", headerGet req.header "Date"]
      ++ sortStrings (vendorSections req.header) ++ [req.escapedPath])

/-- The canonical string exactly as the claim words it: one line per header
whose name starts case-insensitively with a vendor tag (no condition on the
value list), rendered and sorted, between the four fixed lines and the path. -/
def signStringClaim (req : Request) : String :=
  joinSep "\n"
    ([req.method, headerGet req.header "Content-MD5",
      headerGet req.header "Content-Type", headerGet req.header "Date"]
      ++ sortStrings
          (((req.header : List (String × List String)).filter
              (fun kv =>
                strStarts (toLowerStr kv.1) "x-log-" ||
                  strStarts (toLowerStr kv.1) "x-acs-")).map renderSection)
      ++ [req.escapedPath])

/-- The canonical string as amended: the vendor filter is the code's own
case-sensitive, non-empty-valued one, phrased as filter-then-map-then-sort. -/
def signStringAmended (req : Request) : String :=
  joinSep "\n"
    ([req.method, headerGet req.header "Content-MD5",
      headerGet req.header "Content-Type", headerGet req.header "Date"]
      ++ sortStrings
          (((req.header : List (String × List String)).filter isVendorHeader).map
            renderSection)
      ++ [req.escapedPath])

theorem vendorSections_eq_filter_map (h : Header) :
    vendorSections h =
      ((h : List (String × List String)).filter isVendorHeader).map
        renderSection := by
  unfold vendorSections
  suffices H : ∀ (l : List (String × List String)) (acc : List String),
      List.foldl
        (fun acc kv => if isVendorHeader kv then acc ++ [renderSection kv] else acc)
        acc l = acc ++ (l.filter isVendorHeader).map renderSection by
    simpa using H h []
  intro l
  induction l with
  | nil => simp
  | cons kv rest ih =>
    intro acc
    by_cases hkv : isVendorHeader kv <;>
      simp [List.filter_cons, hkv, ih]

/-! ## SHA-1, HMAC and base64 (`crypto/sha1`, `crypto/hmac`,
`encoding/base64` as used by `signature`)

Words are `Nat` reduced modulo `2 ^ 32`; byte sequences are `List Nat`. -/

def w32 (n : Nat) : Nat := n % 4294967296

/-- Rotate a 32-bit word left by `k` (0 < k < 32): the two summands occupy
disjoint bit ranges, so addition is bitwise or. -/
def rotl (k n : Nat) : Nat := w32 (n * 2 ^ k) + n / 2 ^ (32 - k)

/-- Bitwise complement on 32-bit words. -/
def not32 (n : Nat) : Nat := 4294967295 - n

def sha1F (i b c d : Nat) : Nat :=
  if i < 20 then (b &&& c) ||| (not32 b &&& d)
  else if i < 40 then b ^^^ c ^^^ d
  else if i < 60 then (b &&& c) ||| (b &&& d) ||| (c &&& d)
  else b ^^^ c ^^^ d

def sha1K (i : Nat) : Nat :=
  if i < 20 then 0x5A827999
  else if i < 40 then 0x6ED9EBA1
  else if i < 60 then 0x8F1BBCDC
  else 0xCA62C1D6

/-- Big-endian 4-byte groups to 32-bit words. -/
def toWordsBE : List Nat → List Nat
  | b0 :: b1 :: b2 :: b3 :: rest =>
    (((b0 * 256 + b1) * 256 + b2) * 256 + b3) :: toWordsBE rest
  | _ => []

/-- Message-schedule extension: `win` is the sliding window of the previous
16 words, oldest first; `w[i] = rotl1 (w[i-3] ^ w[i-8] ^ w[i-14] ^ w[i-16])`. -/
def sha1Extend (win : List Nat) : Nat → List Nat
  | 0 => []
  | k + 1 =>
    let wi := rotl 1 (win.getD 13 0 ^^^ win.getD 8 0 ^^^ win.getD 2 0 ^^^ win.getD 0 0)
    wi :: sha1Extend (win.drop 1 ++ [wi]) k

def sha1Round (st : Nat × Nat × Nat × Nat × Nat) (iw : Nat × Nat) :
    Nat × Nat × Nat × Nat × Nat :=
  match st, iw with
  | (a, b, c, d, e), (i, wi) =>
    (w32 (rotl 5 a + sha1F i b c d + e + sha1K i + wi), a, rotl 30 b, c, d)

/-- One SHA-1 block step on a 16-word block. -/
def sha1Block (st : Nat × Nat × Nat × Nat × Nat) (block : List Nat) :
    Nat × Nat × Nat × Nat × Nat :=
  match st with
  | (h0, h1, h2, h3, h4) =>
    let sched := block ++ sha1Extend block 64
    match List.foldl sha1Round (h0, h1, h2, h3, h4) ((List.range 80).zip sched) with
    | (a, b, c, d, e) => (w32 (h0 + a), w32 (h1 + b), w32 (h2 + c), w32 (h3 + d), w32 (h4 + e))

/-- Big-endian bytes of a 64-bit value. -/
def be64 (n : Nat) : List Nat :=
  [n / 2 ^ 56 % 256, n / 2 ^ 48 % 256, n / 2 ^ 40 % 256, n / 2 ^ 32 % 256,
   n / 2 ^ 24 % 256, n / 2 ^ 16 % 256, n / 2 ^ 8 % 256, n % 256]

def be32 (n : Nat) : List Nat :=
  [n / 2 ^ 24 % 256, n / 2 ^ 16 % 256, n / 2 ^ 8 % 256, n % 256]

/-- SHA-1 padding: a 0x80 byte, zeros to 56 mod 64, and the bit length. -/
def sha1Pad (msg : List Nat) : List Nat :=
  msg ++ 0x80 :: List.replicate ((119 - msg.length % 64) % 64) 0 ++ be64 (8 * msg.length)

/-- Split a word list into 16-word blocks. -/
def blocks16 : List Nat → List (List Nat)
  | a1 :: a2 :: a3 :: a4 :: a5 :: a6 :: a7 :: a8 ::
      a9 :: a10 :: a11 :: a12 :: a13 :: a14 :: a15 :: a16 :: rest =>
    [a1, a2, a3, a4, a5, a6, a7, a8, a9, a10, a11, a12, a13, a14, a15, a16] ::
      blocks16 rest
  | _ => []

def sha1 (msg : List Nat) : List Nat :=
  match List.foldl sha1Block (0x67452301, 0xEFCDAB89, 0x98BADCFE, 0x10325476, 0xC3D2E1F0)
      (blocks16 (toWordsBE (sha1Pad msg))) with
  | (h0, h1, h2, h3, h4) => be32 h0 ++ be32 h1 ++ be32 h2 ++ be32 h3 ++ be32 h4

/-- `hmac.New(sha1.New, secret)` followed by write and sum. -/
def hmacSha1 (key msg : List Nat) : List Nat :=
  let k0 := (if 64 < key.length then sha1 key else key) ++
    List.replicate (64 - (if 64 < key.length then sha1 key else key).length) 0
  sha1 ((k0.map (fun b => b ^^^ 0x5C)) ++ sha1 ((k0.map (fun b => b ^^^ 0x36)) ++ msg))

def b64Alphabet : List Char :=
  "ABCDEFGHIJKLMNOPQRSTUVWXYZabcdefghijklmnopqrstuvwxyz0123456789+/".data

def b64Char (n : Nat) : Char := b64Alphabet.getD n '='

/-- `base64.StdEncoding.EncodeToString`. -/
def base64Chars : List Nat → List Char
  | b0 :: b1 :: b2 :: rest =>
    b64Char (b0 / 4) :: b64Char (b0 % 4 * 16 + b1 / 16) ::
      b64Char (b1 % 16 * 4 + b2 / 64) :: b64Char (b2 % 64) :: base64Chars rest
  | [b0, b1] =>
    [b64Char (b0 / 4), b64Char (b0 % 4 * 16 + b1 / 16), b64Char (b1 % 16 * 4), '=']
  | [b0] => [b64Char (b0 / 4), b64Char (b0 % 4 * 16), '=', '=']
  | [] => []

def base64Encode (bs : List Nat) : String := ⟨base64Chars bs⟩

/-- ASCII bytes of a string (every string fed to the MAC here is ASCII). -/
def strBytes (s : String) : List Nat := s.data.map Char.toNat

/-- `signature` (writer.go lines 171-218): base64 of the HMAC-SHA1 digest of
the canonical string under the secret; the digest-write error path of the Go
code is unreachable, so the result is the string alone. -/
def signature (secret : List Nat) (req : Request) : String :=
  base64Encode (hmacSha1 secret (strBytes (signString req)))

/-- A request exercising the two divergences between the claim's wording and
the code: a vendor header in lowercase (matched case-insensitively but not
case-sensitively) and a vendor header with an empty value list. -/
def cexRequest : Request :=
  { method := "GET"
    header := [("x-log-test", ["v"]), ("X-Log-Empty", [])]
    escapedPath := "/"
    rawQuery := "" }

/-- C1. The claim as stated is false: the code's vendor-header filter is
case-sensitive (`strings.HasPrefix`) and skips headers with no values, so on
`cexRequest` the canonical string actually signed differs from the one the
claim describes. -/
theorem sign_canonical_claim_cex : signString cexRequest ≠ signStringClaim cexRequest := by
  decide

/-- C1 (amended). The canonical string is the newline-join of the method, the
Content-MD5, Content-Type and Date header values, one line per header whose
name starts case-sensitively with `X-Log-` or `X-Acs-` and whose value list is
non-empty, rendered as `lowercase-name:trimmed,comma-joined-values` and sorted
ascending, and finally the escaped URL path (the query never enters). -/
theorem sign_canonical_amended (req : Request) :
    signString req = signStringAmended req := by
  unfold signString signStringAmended
  rw [vendorSections_eq_filter_map]

/-- The request of `TestSignature` (the header literal of the test, the
escaped path of the test URL). -/
def testReq : Request :=
  { method := "POST"
    header := [("Date", ["Mon, 09 Nov 2015 06:03:03 GMT"]),
      ("Host", ["test-project.regionid.example.com"]),
      ("X-Log-Apiversion", ["0.6.0"]),
      ("X-Log-Signaturemethod", ["hmac-sha1"]),
      ("Content-Md5", ["1DD45FA4A70A9300CC9FE7305AF2C494"]),
      ("Content-Length", ["52"]),
      ("X-Log-Bodyrawsize", ["50"]),
      ("X-Log-Compresstype", ["lz4"])]
    escapedPath := "/logstores/test-logstore"
    rawQuery := "" }

theorem strBytes_inj {a b : String} (h : strBytes a = strBytes b) : a = b := by
  cases a with | mk da => cases b with | mk db =>
  apply congrArg String.mk
  unfold strBytes at h
  simp only [String.data] at h
  induction da generalizing db with
  | nil => cases db with | nil => rfl | cons c cs => simp at h
  | cons c cs ih =>
    cases db with
    | nil => simp at h
    | cons d ds =>
      simp only [List.map_cons, List.cons.injEq] at h
      exact congrArg₂ (· :: ·) (char_toNat_inj h.1) (ih ds h.2)

set_option maxRecDepth 10000 in
/-- C2. On the concrete vector of `TestSignature` — secret `321`, method
POST, the eight test headers, resource path `/logstores/test-logstore` — the
signature function returns exactly `v/969+iSsYwGFtAXAy1xaK9rNDI=`, the
base64 of the HMAC-SHA1 digest of the canonical string under the secret. -/
theorem signature_test_vector :
    signature (strBytes "321") testReq = "v/969+iSsYwGFtAXAy1xaK9rNDI=" :=
  strBytes_inj (by decide)

/-- C9. Two requests that agree on method, escaped path, the fetched
Content-MD5, Content-Type and Date values, and on the vendor-tagged header
entries up to iteration order, sign identically: no other header can
influence the signature. -/
theorem signature_ignores_other_headers (secret : List Nat) (r1 r2 : Request)
    (hm : r1.method = r2.method) (hp : r1.escapedPath = r2.escapedPath)
    (hmd5 : headerGet r1.header "Content-MD5" = headerGet r2.header "Content-MD5")
    (hct : headerGet r1.header "Content-Type" = headerGet r2.header "Content-Type")
    (hd : headerGet r1.header "Date" = headerGet r2.header "Date")
    (hvendor : List.Perm
      ((r1.header : List (String × List String)).filter isVendorHeader)
      ((r2.header : List (String × List String)).filter isVendorHeader)) :
    signature secret r1 = signature secret r2 := by
  unfold signature signString
  have hsort : sortStrings (vendorSections r1.header) =
      sortStrings (vendorSections r2.header) := by
    unfold sortStrings
    have hs1 : List.Sorted strLe (List.insertionSort strLe (vendorSections r1.header)) :=
      List.sorted_insertionSort strLe _
    have hs2 : List.Sorted strLe (List.insertionSort strLe (vendorSections r2.header)) :=
      List.sorted_insertionSort strLe _
    have hperm : List.Perm (List.insertionSort strLe (vendorSections r1.header))
        (List.insertionSort strLe (vendorSections r2.header)) :=
      ((List.perm_insertionSort strLe _).trans
        (by rw [vendorSections_eq_filter_map, vendorSections_eq_filter_map]
            exact hvendor.map renderSection)).trans
        (List.perm_insertionSort strLe _).symm
    exact List.eq_of_perm_of_sorted hperm hs1 hs2
  rw [hm, hp, hmd5, hct, hd, hsort]

/-- Witness for C9: the test request with a different Host and an extra
Authorization header signs the same as the original. -/
theorem signature_ignores_other_headers_witness :
    signature (strBytes "321") testReq =
      signature (strBytes "321")
        { testReq with
          header := [("Date", ["Mon, 09 Nov 2015 06:03:03 GMT"]),
            ("Host", ["other-host.example.com"]),
            ("Authorization", ["LOG 123:xyz"]),
            ("X-Log-Apiversion", ["0.6.0"]),
            ("X-Log-Signaturemethod", ["hmac-sha1"]),
            ("Content-Md5", ["1DD45FA4A70A9300CC9FE7305AF2C494"]),
            ("Content-Length", ["52"]),
            ("X-Log-Bodyrawsize", ["50"]),
            ("X-Log-Compresstype", ["lz4"])] } :=
  signature_ignores_other_headers _ _ _ (by decide) (by decide) (by decide)
    (by decide) (by decide) (by decide)

/-! ## Response validation (`validateResponse`, writer.go lines 157-169)

The JSON documents this protocol exchanges are objects of string fields, so
the embedded JSON value type has exactly strings and objects. The body
arrives already classified: either a parsed value or a decoder error. -/

inductive Json where
  | str (s : String)
  | obj (fields : List (String × Json))

/-- `AliyunError` (declared outside src/; field set from the spec and the
test fixture): HTTP status, vendor code, vendor message, request id. -/
structure AliyunError where
  httpCode : Nat
  code : String
  message : String
  requestID : String
deriving DecidableEq

/-- Modelled from the spec: the JSON field tags of `AliyunError` (declared
outside src/) map `errorCode` to Code and `errorMessage` to Message; other
keys are ignored, absent keys leave the seeded value, and a non-string value
under a mapped key is a decode error. -/
def decodeFields (e : AliyunError) : List (String × Json) → Except String AliyunError
  | [] => .ok e
  | (k, v) :: rest =>
    if k = "errorCode" then
      match v with
      | .str s => decodeFields { e with code := s } rest
      | _ => .error "errorCode: not a string"
    else if k = "errorMessage" then
      match v with
      | .str s => decodeFields { e with message := s } rest
      | _ => .error "errorMessage: not a string"
    else decodeFields e rest

/-- Modelled from the spec: `json.Decode` into an `AliyunError` — only an
object document succeeds. -/
def decodeInto (e : AliyunError) : Json → Except String AliyunError
  | .obj kvs => decodeFields e kvs
  | .str _ => .error "cannot unmarshal string"

/-- The HTTP response as `validateResponse` consumes it: status code, header
map, and the outcome of reading the body as one JSON document. -/
structure Response where
  statusCode : Nat
  headers : Header
  bodyJson : Except String Json

/-- The error value returned by `validateResponse`: `nil`, the vendor error,
or the JSON decode error passed through. -/
inductive ValidateResult where
  | ok
  | vendor (e : AliyunError)
  | decodeFail (msg : String)
deriving DecidableEq

/-- `validateResponse`: status below 400 is success with the body ignored;
otherwise an `AliyunError` is seeded with the status and the
`X-Log-Requestid` header and the body is decoded into it, a decode failure
being returned as-is. -/
def validateResponse (resp : Response) : ValidateResult :=
  if resp.statusCode < 400 then .ok
  else
    let seed : AliyunError :=
      { httpCode := resp.statusCode, code := "", message := "",
        requestID := headerGet resp.headers "X-Log-Requestid" }
    match resp.bodyJson with
    | .error e => .decodeFail e
    | .ok j =>
      match decodeInto seed j with
      | .error e => .decodeFail e
      | .ok aErr => .vendor aErr

/-- C3. Status below 400 validates successfully whatever the body holds; at
400 and above, a decoder failure is returned as-is, and a well-formed
two-field body yields the vendor error carrying the status, the request-id
header, and the decoded code and message. -/
theorem validate_response_spec (resp : Response) :
    (resp.statusCode < 400 → validateResponse resp = .ok) ∧
    (∀ e, 400 ≤ resp.statusCode → resp.bodyJson = .error e →
      validateResponse resp = .decodeFail e) ∧
    (∀ c m, 400 ≤ resp.statusCode →
      resp.bodyJson = .ok (.obj [("errorCode", .str c), ("errorMessage", .str m)]) →
      validateResponse resp = .vendor
        { httpCode := resp.statusCode, code := c, message := m,
          requestID := headerGet resp.headers "X-Log-Requestid" }) := by
  refine ⟨fun hlt => ?_, fun e hge hb => ?_, fun c m hge hb => ?_⟩
  · simp [validateResponse, hlt]
  · simp [validateResponse, Nat.not_lt_of_ge hge, hb]
  · simp [validateResponse, Nat.not_lt_of_ge hge, hb, decodeInto, decodeFields]

/-- Witness for C3: the 401 response of the writer test, with request id
`123`, decodes to the expected vendor error. -/
theorem validate_response_spec_witness :
    validateResponse
      { statusCode := 401
        headers := [("X-Log-Requestid", ["123"])]
        bodyJson := .ok (.obj [("errorCode", .str "ParameterInvalid"),
          ("errorMessage", .str "pair is invalid")]) } =
      .vendor { httpCode := 401, code := "ParameterInvalid",
                message := "pair is invalid", requestID := "123" } := by
  have h := (validate_response_spec
    { statusCode := 401
      headers := [("X-Log-Requestid", ["123"])]
      bodyJson := .ok (.obj [("errorCode", .str "ParameterInvalid"),
        ("errorMessage", .str "pair is invalid")]) }).2.2
    "ParameterInvalid" "pair is invalid" (by decide) rfl
  rw [h]
  have : headerGet [("X-Log-Requestid", ["123"])] "X-Log-Requestid" = "123" := by decide
  rw [this]

/-- Modelled from the spec: `AliyunError` re-serializes to the same
two-field JSON shape it was decoded from (its marshalling lives outside
src/; the writer test asserts `JSONEq` of `aErr.Error()` with the body). -/
def errorJson (e : AliyunError) : Json :=
  .obj [("errorCode", .str e.code), ("errorMessage", .str e.message)]

/-- Semantic JSON equality as the claims use it: equal strings, and objects
equal up to field order. The documents of this protocol are two-field
objects with string values and distinct keys, for which this coincides with
the `JSONEq` check of the test. -/
def jsonEquiv : Json → Json → Prop
  | .str a, .str b => a = b
  | .obj xs, .obj ys => xs.Perm ys
  | _, _ => False

theorem perm_pair {α : Type} {l : List α} {a b : α} (h : l.Perm [a, b]) :
    l = [a, b] ∨ l = [b, a] := by
  have hlen := h.length_eq
  match l, hlen with
  | [x, y], _ =>
    have hx : x ∈ [a, b] := h.subset (by simp)
    simp only [List.mem_cons, List.mem_singleton, List.not_mem_nil, or_false] at hx
    rcases hx with hx | hx
    · subst hx
      have hy : [y].Perm [b] := h.cons_inv
      left
      rw [List.perm_singleton.mp hy]
    · subst hx
      have h2 : [x, y].Perm [x, a] := h.trans (List.Perm.swap _ _ _)
      have hy : [y].Perm [a] := h2.cons_inv
      right
      rw [List.perm_singleton.mp hy]

/-- C8. A 400-or-above response whose JSON body is, up to field order, the
two-field object `errorCode`/`errorMessage` with string values validates to
a vendor error whose re-serialization is semantically equal to that body. -/
theorem vendor_error_roundtrip (resp : Response) (c m : String)
    (kvs : List (String × Json))
    (hge : 400 ≤ resp.statusCode)
    (hb : resp.bodyJson = .ok (.obj kvs))
    (hkvs : kvs.Perm [("errorCode", .str c), ("errorMessage", .str m)]) :
    ∃ a, validateResponse resp = .vendor a ∧ jsonEquiv (errorJson a) (.obj kvs) := by
  rcases perm_pair hkvs with hk | hk <;> subst hk
  · refine ⟨{ httpCode := resp.statusCode, code := c, message := m,
              requestID := headerGet resp.headers "X-Log-Requestid" }, ?_, ?_⟩
    · simp [validateResponse, Nat.not_lt_of_ge hge, hb, decodeInto, decodeFields]
    · simp [jsonEquiv, errorJson]
  · refine ⟨{ httpCode := resp.statusCode, code := c, message := m,
              requestID := headerGet resp.headers "X-Log-Requestid" }, ?_, ?_⟩
    · simp [validateResponse, Nat.not_lt_of_ge hge, hb, decodeInto, decodeFields]
    · simp only [jsonEquiv, errorJson]
      exact List.Perm.swap _ _ _

/-- Witness for C8: the writer test's 401 body, fields reversed, still
round-trips to a semantically equal document. -/
theorem vendor_error_roundtrip_witness :
    ∃ a, validateResponse
        { statusCode := 401
          headers := [("X-Log-Requestid", ["123"])]
          bodyJson := .ok (.obj [("errorMessage", .str "pair is invalid"),
            ("errorCode", .str "ParameterInvalid")]) } = .vendor a ∧
      jsonEquiv (errorJson a)
        (.obj [("errorMessage", .str "pair is invalid"),
          ("errorCode", .str "ParameterInvalid")]) :=
  vendor_error_roundtrip
    { statusCode := 401
      headers := [("X-Log-Requestid", ["123"])]
      bodyJson := .ok (.obj [("errorMessage", .str "pair is invalid"),
        ("errorCode", .str "ParameterInvalid")]) }
    "ParameterInvalid" "pair is invalid"
    [("errorMessage", .str "pair is invalid"), ("errorCode", .str "ParameterInvalid")]
    (by decide) rfl (List.Perm.swap _ _ _)

/-! ## Compression (`compress` and `copyIncompressible`, writer.go)

The destination buffer only matters through its capacity and the bytes
written into it, so `copyIncompressible` is modelled as producing the pair
(count, bytes written), `none` standing for the out-of-range write panic
that a zero-capacity destination would trigger (unreachable from
`compress`, whose buffer has capacity at least 16). -/

/-- `lz4.CompressBlockBound`: worst-case compressed size `n + n/255 + 16`. -/
def compressBlockBound (n : Nat) : Nat := n + n / 255 + 16

/-- The `for ; lLen >= 0xFF; lLen -= 0xFF` loop of `copyIncompressible`
together with the write of the final remainder byte and its `di++`; entered
with `di < dn`. Returns the bytes written, the final `di`, and whether the
loop returned early because the destination filled. The first argument is
structural-recursion fuel: every iteration removes `0xFF` from `lLen`, so any
fuel at least `lLen` is exact (the fuel-exhausted case only arises at
`lLen = 0`, where it agrees with the loop's exit branch). -/
def ffLoopF : Nat → Nat → Nat → Nat → List Nat × Nat × Bool
  | fuel + 1, lLen, di, dn =>
    if 0xFF ≤ lLen then
      if di + 1 = dn then ([0xFF], di + 1, true)
      else
        match ffLoopF fuel (lLen - 0xFF) (di + 1) dn with
        | (w, di2, early) => (0xFF :: w, di2, early)
    else ([lLen], di + 1, false)
  | 0, lLen, di, _ => ([lLen], di + 1, false)

def ffLoop (lLen di dn : Nat) : List Nat × Nat × Bool := ffLoopF lLen lLen di dn

/-- `copyIncompressible(src, dst)` with `dn = len(dst)`: the
sequence-descriptor byte (literal length below 15 in the high nibble, or
`0xF0` followed by `0xFF` continuation bytes and a remainder byte), then the
source copied verbatim, every write after the first guarded by the remaining
capacity. -/
def copyIncompressible (src : List Nat) (dn : Nat) : Option (Nat × List Nat) :=
  let lLen := src.length
  if dn = 0 then none
  else if lLen < 0xF then
    if 1 + src.length > dn then some (1, [lLen * 16])
    else some (1 + src.length, lLen * 16 :: src)
  else if 1 = dn then some (1, [0xF0])
  else
    match ffLoop (lLen - 0xF) 1 dn with
    | (w, di, true) => some (di, 0xF0 :: w)
    | (w, di, false) =>
      if di + src.length > dn then some (di, 0xF0 :: w)
      else some (di + src.length, (0xF0 :: w) ++ src)

/-- `compress`: run the primary block compressor into a buffer of size
`CompressBlockBound`, fall back to `copyIncompressible` when it reports zero
bytes. The primary compressor (`lz4.CompressBlock`, an external library) is
supplied as its observable result: an error or the bytes it wrote, which fit
the buffer whenever it succeeds. -/
def compress (data : List Nat) (primary : Except String (List Nat)) :
    Except String (List Nat) :=
  match primary with
  | .error e => .error e
  | .ok w =>
    if w.length = 0 then
      match copyIncompressible data (compressBlockBound data.length) with
      | some (_, out) => .ok out
      | none => .error "unreachable: the bound is positive"
    else .ok w

/-- The literal-only block as the claim describes it: descriptor (length in
the high nibble when below 15, else 15 with `0xFF` continuations and a
remainder) followed by the input verbatim. -/
def literalBlock (src : List Nat) : List Nat :=
  if src.length < 0xF then src.length * 16 :: src
  else 0xF0 :: (List.replicate ((src.length - 0xF) / 0xFF) 0xFF
    ++ [(src.length - 0xF) % 0xFF]) ++ src

theorem ffLoopF_spec (fuel : Nat) :
    ∀ lLen di dn, lLen ≤ fuel → di < dn →
      (ffLoopF fuel lLen di dn).2.1 = di + (ffLoopF fuel lLen di dn).1.length ∧
      (ffLoopF fuel lLen di dn).2.1 ≤ dn := by
  induction fuel with
  | zero =>
    intro lLen di dn _ hdi
    dsimp only [ffLoopF]
    simp only [List.length_cons, List.length_nil, true_and]
    omega
  | succ fuel ih =>
    intro lLen di dn hfuel hdi
    dsimp only [ffLoopF]
    by_cases hl : 0xFF ≤ lLen
    · rw [if_pos hl]
      by_cases hfull : di + 1 = dn
      · rw [if_pos hfull]
        dsimp only
        simp only [List.length_cons, List.length_nil, true_and]
        omega
      · rw [if_neg hfull]
        have hrec := ih (lLen - 0xFF) (di + 1) dn (by omega) (by omega)
        rcases hval : ffLoopF fuel (lLen - 0xFF) (di + 1) dn with ⟨w, di2, early⟩
        rw [hval] at hrec
        dsimp only at hrec ⊢
        simp only [List.length_cons] at hrec ⊢
        omega
    · rw [if_neg hl]
      dsimp only
      simp only [List.length_cons, List.length_nil, true_and]
      omega

theorem ffLoopF_complete (fuel : Nat) :
    ∀ lLen di dn, lLen ≤ fuel → di + lLen / 0xFF + 1 ≤ dn →
      ffLoopF fuel lLen di dn =
        (List.replicate (lLen / 0xFF) 0xFF ++ [lLen % 0xFF],
          di + lLen / 0xFF + 1, false) := by
  induction fuel with
  | zero =>
    intro lLen di dn hfuel _
    have h0 : lLen = 0 := by omega
    subst h0
    simp [ffLoopF]
  | succ fuel ih =>
    intro lLen di dn hfuel hfit
    simp only [ffLoopF]
    by_cases hl : 0xFF ≤ lLen
    · rw [if_pos hl]
      have hq : 1 ≤ lLen / 0xFF := (Nat.one_le_div_iff (by omega)).mpr hl
      rw [if_neg (show ¬ di + 1 = dn by omega)]
      have hq' : (lLen - 0xFF) / 0xFF = lLen / 0xFF - 1 := by omega
      have hm : (lLen - 0xFF) % 0xFF = lLen % 0xFF := by omega
      rw [ih (lLen - 0xFF) (di + 1) dn (by omega) (by omega), hq', hm]
      dsimp only
      have hrep : List.replicate (lLen / 0xFF) (0xFF : Nat) =
          0xFF :: List.replicate (lLen / 0xFF - 1) 0xFF := by
        cases hq2 : lLen / 0xFF with
        | zero => omega
        | succ k => simp [List.replicate_succ]
      rw [hrep]
      simp only [List.cons_append, Prod.mk.injEq, List.cons.injEq, true_and,
        and_true]
      omega
    · rw [if_neg hl]
      rw [Nat.div_eq_of_lt (by omega), Nat.mod_eq_of_lt (by omega)]
      simp

theorem copyIncompressible_complete (src : List Nat) (dn : Nat)
    (hfit : (literalBlock src).length ≤ dn) :
    copyIncompressible src dn =
      some ((literalBlock src).length, literalBlock src) := by
  by_cases hshort : src.length < 0xF
  · have hlen : (literalBlock src).length = src.length + 1 := by
      simp [literalBlock, hshort]
    rw [hlen] at hfit ⊢
    unfold copyIncompressible
    rw [if_neg (show ¬ dn = 0 by omega), if_pos hshort, if_neg (by omega)]
    simp only [literalBlock, if_pos hshort, Option.some.injEq, Prod.mk.injEq]
    exact ⟨by omega, by trivial⟩
  · have hlen : (literalBlock src).length =
        2 + (src.length - 0xF) / 0xFF + src.length := by
      simp [literalBlock, hshort]
      omega
    rw [hlen] at hfit ⊢
    unfold copyIncompressible
    rw [if_neg (show ¬ dn = 0 by omega), if_neg hshort,
      if_neg (show ¬ (1 : Nat) = dn by omega)]
    rw [show ffLoop (src.length - 0xF) 1 dn =
        (List.replicate ((src.length - 0xF) / 0xFF) 0xFF
          ++ [(src.length - 0xF) % 0xFF], 1 + (src.length - 0xF) / 0xFF + 1,
          false) from
      ffLoopF_complete _ _ _ _ (Nat.le_refl _) (by omega)]
    simp only
    rw [if_neg (by omega)]
    simp only [literalBlock, if_neg hshort, Option.some.injEq, Prod.mk.injEq,
      List.cons_append]
    exact ⟨by omega, by trivial⟩

theorem copyIncompressible_total (src : List Nat) (dn : Nat) (hdn : 0 < dn) :
    ∃ di w, copyIncompressible src dn = some (di, w) ∧ di = w.length ∧ di ≤ dn := by
  unfold copyIncompressible
  rw [if_neg (show ¬ dn = 0 by omega)]
  by_cases hshort : src.length < 0xF
  · rw [if_pos hshort]
    by_cases hov : 1 + src.length > dn
    · rw [if_pos hov]
      exact ⟨1, _, rfl, by simp, by omega⟩
    · rw [if_neg hov]
      refine ⟨1 + src.length, _, rfl, ?_, by omega⟩
      simp only [List.length_cons]
      omega
  · rw [if_neg hshort]
    by_cases hone : (1 : Nat) = dn
    · rw [if_pos hone]
      exact ⟨1, _, rfl, by simp, by omega⟩
    · rw [if_neg hone]
      have hspec := ffLoopF_spec (src.length - 0xF) (src.length - 0xF) 1 dn
        (Nat.le_refl _) (by omega)
      match hval : ffLoop (src.length - 0xF) 1 dn with
      | (w, di, true) =>
        rw [show ffLoopF (src.length - 0xF) (src.length - 0xF) 1 dn =
          (w, di, true) from hval] at hspec
        dsimp only
        dsimp only at hspec
        refine ⟨di, _, rfl, ?_, hspec.2⟩
        simp only [List.length_cons]
        omega
      | (w, di, false) =>
        rw [show ffLoopF (src.length - 0xF) (src.length - 0xF) 1 dn =
          (w, di, false) from hval] at hspec
        dsimp only
        dsimp only at hspec
        by_cases hov : di + src.length > dn
        · rw [if_pos hov]
          refine ⟨di, _, rfl, ?_, hspec.2⟩
          simp only [List.length_cons]
          omega
        · rw [if_neg hov]
          refine ⟨di + src.length, _, rfl, ?_, by omega⟩
          simp only [List.cons_append, List.length_cons, List.length_append]
          omega

theorem literalBlock_fits (src : List Nat) :
    (literalBlock src).length ≤ compressBlockBound src.length := by
  by_cases hshort : src.length < 0xF
  · simp only [literalBlock, if_pos hshort, compressBlockBound, List.length_cons]
    omega
  · simp only [literalBlock, if_neg hshort, compressBlockBound, List.length_cons,
      List.length_append, List.length_replicate, List.length_nil]
    have : (src.length - 0xF) / 0xFF ≤ src.length / 0xFF :=
      Nat.div_le_div_right (by omega)
    omega

/-- C4. Whenever `compress` succeeds — the primary block path returning
bytes that fit its `CompressBlockBound`-sized buffer, or the literal
fallback when it reports zero bytes — the output length is at most
`L + L/255 + 16` for `L` the input length. -/
theorem compress_output_bound (data : List Nat) (w : List Nat) (out : List Nat)
    (hw : w.length ≤ compressBlockBound data.length)
    (hout : compress data (.ok w) = .ok out) :
    out.length ≤ data.length + data.length / 255 + 16 := by
  unfold compress at hout
  dsimp only at hout
  by_cases hz : w.length = 0
  · rw [if_pos hz] at hout
    obtain ⟨di, wr, heq, hlen, hle⟩ :=
      copyIncompressible_total data (compressBlockBound data.length)
        (by simp only [compressBlockBound]; omega)
    rw [heq] at hout
    simp only [Except.ok.injEq] at hout
    subst hout
    have : wr.length ≤ compressBlockBound data.length := by omega
    simpa only [compressBlockBound] using this
  · rw [if_neg hz] at hout
    simp only [Except.ok.injEq] at hout
    subst hout
    simpa only [compressBlockBound] using hw

/-- Witness for C4: twenty bytes of input with the primary compressor
reporting zero bytes stay within the worst-case bound. -/
theorem compress_output_bound_witness :
    ([7, 7, 7, 7, 7, 7, 7, 7, 7, 7, 7, 7, 7, 7, 7, 7, 7, 7, 7, 7] : List Nat).length
        ≤ compressBlockBound 20 ∧
      ∀ out, compress [7, 7, 7, 7, 7, 7, 7, 7, 7, 7, 7, 7, 7, 7, 7, 7, 7, 7, 7, 7]
          (.ok []) = .ok out →
        out.length ≤ 20 + 20 / 255 + 16 := by
  refine ⟨by decide, fun out hout => ?_⟩
  have h := compress_output_bound
    [7, 7, 7, 7, 7, 7, 7, 7, 7, 7, 7, 7, 7, 7, 7, 7, 7, 7, 7, 7] [] out
    (by decide) hout
  simpa using h

/-- C5. When the primary compressor reports zero output bytes, `compress`
emits exactly the literal-only block — the descriptor byte (literal length
in the high nibble for lengths up to 14, else 15 with `0xFF` continuation
bytes and a remainder byte) followed by the input verbatim and nothing else —
and `copyIncompressible` itself never returns an error for a non-empty
destination, returning the count of bytes it managed to write even when the
destination fills up. -/
theorem compress_literal_fallback (data : List Nat) :
    compress data (.ok []) = .ok (literalBlock data) ∧
      (∀ dn, 0 < dn → ∃ di w, copyIncompressible data dn = some (di, w) ∧
        di = w.length ∧ di ≤ dn) := by
  constructor
  · unfold compress
    dsimp only [List.length_nil]
    rw [if_pos rfl,
      copyIncompressible_complete data _ (literalBlock_fits data)]
  · exact fun dn hdn => copyIncompressible_total data dn hdn

set_option maxRecDepth 40000 in
/-- Witness for C5: a 300-byte input produces descriptor `0xF0`, one `0xFF`
continuation, remainder 30, then the input; a 2-byte destination truncates
to the two descriptor bytes that fit. -/
theorem compress_literal_fallback_witness :
    compress (List.replicate 300 1) (.ok []) =
        .ok (0xF0 :: 0xFF :: 30 :: List.replicate 300 1) ∧
      (0 : Nat) < 2 ∧
      (∃ di w, copyIncompressible (List.replicate 300 1) 2 = some (di, w) ∧
        di = w.length ∧ di ≤ 2) :=
  ⟨(compress_literal_fallback (List.replicate 300 1)).1.trans (by rfl),
    by decide,
    (compress_literal_fallback (List.replicate 300 1)).2 2 (by decide)⟩

/-! ## Batch encoding (`encode`, writer.go lines 82-103)

`encode` builds an `api.LogGroup` from the writer's topic and source and the
messages, then serialises it with `proto.Marshal`. The generated schema
(`api/log.pb.go`) is outside src/, so the wire format is modelled from the
spec's binary payload schema: LogGroup `{1: topic, 2: source, 3: repeated
log}`, Log `{1: time uint32, 2: repeated content}`, Content `{1: key,
2: value}`, varint-based and length-delimited, fields emitted in tag order.
String payloads are byte lists. -/

/-- Protobuf base-128 varint, least-significant group first. Structural
fuel; any fuel at least `n` is exact, since each step divides `n` by 128
(the fuel-exhausted case only arises at `n = 0`, where it agrees). -/
def encodeVarintF : Nat → Nat → List Nat
  | 0, n => [n]
  | fuel + 1, n =>
    if n < 0x80 then [n] else (n % 0x80 + 0x80) :: encodeVarintF fuel (n / 0x80)

def encodeVarint (n : Nat) : List Nat := encodeVarintF n n

def decodeVarint : List Nat → Option (Nat × List Nat)
  | [] => none
  | b :: rest =>
    if b < 0x80 then some (b, rest)
    else
      match decodeVarint rest with
      | some (v, r) => some (b % 0x80 + 0x80 * v, r)
      | none => none

/-- A length-delimited field payload: varint byte count, then the bytes. -/
def encodeLen (bs : List Nat) : List Nat := encodeVarint bs.length ++ bs

/-- Read one length-delimited payload. -/
def readLen (bs : List Nat) : Option (List Nat × List Nat) :=
  match decodeVarint bs with
  | some (n, rest) =>
    if n ≤ rest.length then some (rest.take n, rest.drop n) else none
  | none => none

/-- `Log_Content`: key (tag 1), value (tag 2). -/
def encodeContent (kv : List Nat × List Nat) : List Nat :=
  0x0A :: encodeLen kv.1 ++ (0x12 :: encodeLen kv.2)

/-- `Log`: time (tag 1, varint), repeated contents (tag 2). -/
def encodeLog (t : Nat) (cs : List (List Nat × List Nat)) : List Nat :=
  0x08 :: encodeVarint t
    ++ (cs.map (fun c => 0x12 :: encodeLen (encodeContent c))).flatten

/-- `LogGroup`: topic (tag 1), source (tag 2), repeated logs (tag 3). -/
def encodeGroup (topic source : List Nat)
    (logs : List (Nat × List (List Nat × List Nat))) : List Nat :=
  0x0A :: encodeLen topic ++ (0x12 :: encodeLen source)
    ++ (logs.map (fun l => 0x1A :: encodeLen (encodeLog l.1 l.2))).flatten

/-- Go `time.Time`: whole seconds and a nanosecond remainder in `[0, 1e9)`;
`Unix()` returns the seconds, i.e. the time truncated to whole seconds. -/
structure GoTime where
  sec : Int
  nsec : Nat
deriving DecidableEq

def GoTime.unix (t : GoTime) : Int := t.sec

structure Message where
  time : GoTime
  contents : List (List Nat × List Nat)
deriving DecidableEq

/-- Go's `uint32(i)` conversion of an `int64`: the low 32 bits. -/
def uint32cast (i : Int) : Nat := (i % 4294967296).toNat

structure WriterCfg where
  topic : List Nat
  source : List Nat
deriving DecidableEq

/-- `encode`: the serialised LogGroup with the writer's topic and source and
one log per message, in order, each carrying `uint32(message.Time.Unix())`
and the message's contents. (`proto.Marshal` cannot fail on this group, so
the model is total.) -/
def writerEncode (w : WriterCfg) (messages : List Message) : List Nat :=
  encodeGroup w.topic w.source
    (messages.map (fun m => (uint32cast m.time.unix, m.contents)))

/-- Decode one `Log_Content` message. -/
def decodeContent (bs : List Nat) : Option (List Nat × List Nat) :=
  match bs with
  | b :: r =>
    if b = 0x0A then
      match readLen r with
      | some (k, r2) =>
        match r2 with
        | b2 :: r3 =>
          if b2 = 0x12 then
            match readLen r3 with
            | some (v, r4) => if r4 = [] then some (k, v) else none
            | none => none
          else none
        | [] => none
      | none => none
    else none
  | [] => none

/-- Decode the repeated contents of a `Log`; fuel bounded by the byte count. -/
def decodeContentsF : Nat → List Nat → Option (List (List Nat × List Nat))
  | _, [] => some []
  | 0, _ :: _ => none
  | fuel + 1, b :: r =>
    if b = 0x12 then
      match readLen r with
      | some (c, rest) =>
        match decodeContent c, decodeContentsF fuel rest with
        | some kv, some cs => some (kv :: cs)
        | _, _ => none
      | none => none
    else none

/-- Decode one `Log` message. -/
def decodeLog (bs : List Nat) : Option (Nat × List (List Nat × List Nat)) :=
  match bs with
  | b :: r =>
    if b = 0x08 then
      match decodeVarint r with
      | some (t, rest) =>
        match decodeContentsF rest.length rest with
        | some cs => some (t, cs)
        | none => none
      | none => none
    else none
  | [] => none

/-- Decode the repeated logs of a `LogGroup`. -/
def decodeLogsF : Nat → List Nat → Option (List (Nat × List (List Nat × List Nat)))
  | _, [] => some []
  | 0, _ :: _ => none
  | fuel + 1, b :: r =>
    if b = 0x1A then
      match readLen r with
      | some (l, rest) =>
        match decodeLog l, decodeLogsF fuel rest with
        | some lg, some lgs => some (lg :: lgs)
        | _, _ => none
      | none => none
    else none

structure DecodedGroup where
  topic : List Nat
  source : List Nat
  logs : List (Nat × List (List Nat × List Nat))
deriving DecidableEq

/-- Decode a serialised `LogGroup`. -/
def decodeGroup (bs : List Nat) : Option DecodedGroup :=
  match bs with
  | b :: r =>
    if b = 0x0A then
      match readLen r with
      | some (t, r2) =>
        match r2 with
        | b2 :: r3 =>
          if b2 = 0x12 then
            match readLen r3 with
            | some (s, r4) =>
              match decodeLogsF r4.length r4 with
              | some lgs => some ⟨t, s, lgs⟩
              | none => none
            | none => none
          else none
        | [] => none
      | none => none
    else none
  | [] => none

theorem decodeVarint_encodeVarintF (fuel : Nat) :
    ∀ n rest, n ≤ fuel →
      decodeVarint (encodeVarintF fuel n ++ rest) = some (n, rest) := by
  induction fuel with
  | zero =>
    intro n rest hn
    have h0 : n = 0 := by omega
    subst h0
    simp [encodeVarintF, decodeVarint]
  | succ fuel ih =>
    intro n rest hn
    by_cases hsmall : n < 0x80
    · simp [encodeVarintF, decodeVarint, hsmall]
    · have hb : ¬ n % 0x80 + 0x80 < 0x80 := by omega
      simp only [encodeVarintF, if_neg hsmall, List.cons_append]
      simp only [decodeVarint, if_neg hb]
      rw [ih (n / 0x80) rest (by omega)]
      simp only [Option.some.injEq, Prod.mk.injEq, and_true]
      omega

theorem decodeVarint_encodeVarint (n : Nat) (rest : List Nat) :
    decodeVarint (encodeVarint n ++ rest) = some (n, rest) :=
  decodeVarint_encodeVarintF n n rest (Nat.le_refl n)

theorem readLen_encodeLen (bs rest : List Nat) :
    readLen (encodeLen bs ++ rest) = some (bs, rest) := by
  unfold readLen encodeLen
  rw [List.append_assoc, decodeVarint_encodeVarint]
  dsimp only
  rw [if_pos (by simp), List.take_left, List.drop_left]

theorem readLen_encodeLen_nil (bs : List Nat) :
    readLen (encodeLen bs) = some (bs, []) := by
  have h := readLen_encodeLen bs []
  rwa [List.append_nil] at h

theorem decodeContent_encodeContent (kv : List Nat × List Nat) :
    decodeContent (encodeContent kv) = some kv := by
  unfold encodeContent decodeContent
  simp only [List.cons_append, List.append_assoc, readLen_encodeLen,
    readLen_encodeLen_nil, eq_self_iff_true, if_true, Prod.mk.eta]

theorem decodeContentsF_encode (cs : List (List Nat × List Nat)) :
    ∀ fuel,
      ((cs.map (fun c => 0x12 :: encodeLen (encodeContent c))).flatten).length ≤ fuel →
      decodeContentsF fuel
        ((cs.map (fun c => 0x12 :: encodeLen (encodeContent c))).flatten) =
        some cs := by
  induction cs with
  | nil => intro fuel _; cases fuel <;> rfl
  | cons c cs ih =>
    intro fuel hfuel
    simp only [List.map_cons, List.flatten_cons, List.cons_append,
      List.length_cons, List.length_append] at hfuel ⊢
    match fuel, hfuel with
    | fuel + 1, hfuel =>
      simp only [decodeContentsF, if_pos rfl]
      simp only [List.cons_append, List.append_assoc, readLen_encodeLen,
        decodeContent_encodeContent, ih fuel (by omega), eq_self_iff_true,
        if_true]

theorem decodeLog_encodeLog (t : Nat) (cs : List (List Nat × List Nat)) :
    decodeLog (encodeLog t cs) = some (t, cs) := by
  unfold encodeLog decodeLog
  simp only [List.cons_append, List.append_assoc, decodeVarint_encodeVarint,
    eq_self_iff_true, if_true]
  rw [decodeContentsF_encode cs _ (Nat.le_refl _)]

theorem decodeLogsF_encode (logs : List (Nat × List (List Nat × List Nat))) :
    ∀ fuel,
      ((logs.map (fun l => 0x1A :: encodeLen (encodeLog l.1 l.2))).flatten).length
        ≤ fuel →
      decodeLogsF fuel
        ((logs.map (fun l => 0x1A :: encodeLen (encodeLog l.1 l.2))).flatten) =
        some logs := by
  induction logs with
  | nil => intro fuel _; cases fuel <;> rfl
  | cons l logs ih =>
    intro fuel hfuel
    simp only [List.map_cons, List.flatten_cons, List.cons_append,
      List.length_cons, List.length_append] at hfuel ⊢
    match fuel, hfuel with
    | fuel + 1, hfuel =>
      simp only [decodeLogsF, if_pos rfl]
      simp only [List.cons_append, List.append_assoc, readLen_encodeLen,
        decodeLog_encodeLog, ih fuel (by omega), Prod.mk.eta, eq_self_iff_true,
        if_true]

theorem decodeGroup_encodeGroup (topic source : List Nat)
    (logs : List (Nat × List (List Nat × List Nat))) :
    decodeGroup (encodeGroup topic source logs) = some ⟨topic, source, logs⟩ := by
  unfold encodeGroup decodeGroup
  simp only [List.cons_append, List.append_assoc, readLen_encodeLen,
    eq_self_iff_true, if_true]
  rw [decodeLogsF_encode logs _ (Nat.le_refl _)]

/-- C6 counterexample. A message one second before the epoch: its Unix
seconds are `-1`, but the decoded log stores `uint32(-1) = 4294967295`, so
the decoded Time does not equal the message's time truncated to whole Unix
seconds. -/
theorem encode_time_truncation_cex :
    decodeGroup (writerEncode ⟨[116], [115]⟩ [⟨⟨-1, 0⟩, []⟩]) =
        some ⟨[116], [115], [(4294967295, [])]⟩ ∧
      ((4294967295 : Int) ≠ GoTime.unix ⟨-1, 0⟩) := by
  exact ⟨by decide, by decide⟩

/-- C6 (amended). For every non-empty message sequence whose Unix-seconds
timestamps all lie in `[0, 2^32)`, decoding the encoder's output yields the
writer's topic and source, one log per message in the same order carrying
that message's contents, and each log's Time equal to the message's time
truncated to whole Unix seconds (outside that range the stored Time is the
value modulo 2^32, see the wrap-around theorem). -/
theorem encode_decode_roundtrip (w : WriterCfg) (msgs : List Message)
    (hne : msgs ≠ [])
    (ht : ∀ m ∈ msgs, 0 ≤ m.time.unix ∧ m.time.unix < 4294967296) :
    ∃ g, decodeGroup (writerEncode w msgs) = some g ∧
      g.topic = w.topic ∧ g.source = w.source ∧
      g.logs = msgs.map (fun m => (Int.toNat m.time.unix, m.contents)) ∧
      g.logs.map (fun l => (l.1 : Int)) = msgs.map (fun m => m.time.unix) := by
  have hcast : msgs.map (fun m => (uint32cast m.time.unix, m.contents)) =
      msgs.map (fun m => (Int.toNat m.time.unix, m.contents)) := by
    apply List.map_congr_left
    intro m hm
    have hr := ht m hm
    unfold uint32cast
    rw [Int.emod_eq_of_lt hr.1 hr.2]
  refine ⟨_, decodeGroup_encodeGroup _ _ _, rfl, rfl, hcast, ?_⟩
  rw [hcast, List.map_map]
  apply List.map_congr_left
  intro m hm
  have hr := ht m hm
  exact Int.toNat_of_nonneg hr.1

/-- Witness for C6: two concrete messages with epoch-range timestamps decode
back to the expected group. -/
theorem encode_decode_roundtrip_witness :
    ∃ g, decodeGroup (writerEncode ⟨[116], [115]⟩
        [⟨⟨5, 500000000⟩, [([107], [118])]⟩, ⟨⟨6, 0⟩, []⟩]) = some g ∧
      g.topic = [116] ∧ g.source = [115] ∧
      g.logs = [⟨⟨5, 500000000⟩, [([107], [118])]⟩,
        (⟨⟨6, 0⟩, []⟩ : Message)].map (fun m => (Int.toNat m.time.unix, m.contents)) ∧
      g.logs.map (fun l => (l.1 : Int)) =
        [⟨⟨5, 500000000⟩, [([107], [118])]⟩,
          (⟨⟨6, 0⟩, []⟩ : Message)].map (fun m => m.time.unix) :=
  encode_decode_roundtrip ⟨[116], [115]⟩
    [⟨⟨5, 500000000⟩, [([107], [118])]⟩, ⟨⟨6, 0⟩, []⟩]
    (by decide) (by decide)

/-- C10. The encoder reduces every message's Unix seconds modulo 2^32 —
encoding is total and never rejects a timestamp, the decoded Time is always
the residue — and for any seconds value before 1970 or at/after 2106 the
stored 32-bit value genuinely differs from the original (wrap-around). -/
theorem encode_time_wraps (w : WriterCfg) (msgs : List Message) :
    (∃ g, decodeGroup (writerEncode w msgs) = some g ∧
      g.logs.map (fun l => l.1) =
        msgs.map (fun m => Int.toNat (m.time.unix % 4294967296))) ∧
    (∀ s : Int, s < 0 ∨ 4294967296 ≤ s →
      ((uint32cast s : Int) ≠ s ∧ uint32cast s = Int.toNat (s % 4294967296))) := by
  constructor
  · refine ⟨_, decodeGroup_encodeGroup _ _ _, ?_⟩
    rw [List.map_map]
    rfl
  · intro s hs
    refine ⟨?_, rfl⟩
    have h1 : 0 ≤ s % 4294967296 := Int.emod_nonneg s (by decide)
    have h2 : s % 4294967296 < 4294967296 := Int.emod_lt_of_pos s (by decide)
    have h3 : (Int.toNat (s % 4294967296) : Int) = s % 4294967296 :=
      Int.toNat_of_nonneg h1
    unfold uint32cast
    rw [h3]
    omega

/-- Witness for C10: the single pre-epoch message wraps; at `s = -1` the
stored value `4294967295` differs from `-1`. -/
theorem encode_time_wraps_witness :
    (∃ g, decodeGroup (writerEncode ⟨[116], [115]⟩ [⟨⟨-1, 0⟩, []⟩]) = some g ∧
      g.logs.map (fun l => l.1) =
        [(⟨⟨-1, 0⟩, []⟩ : Message)].map
          (fun m => Int.toNat (m.time.unix % 4294967296))) ∧
    ((uint32cast (-1) : Int) ≠ -1 ∧
      uint32cast (-1) = Int.toNat ((-1) % 4294967296)) :=
  ⟨(encode_time_wraps ⟨[116], [115]⟩ [⟨⟨-1, 0⟩, []⟩]).1,
    (encode_time_wraps ⟨[116], [115]⟩ [⟨⟨-1, 0⟩, []⟩]).2 (-1) (Or.inl (by decide))⟩

/-! ## The `WriteMessage` pipeline (writer.go lines 59-80)

`WriteMessage` short-circuits on an empty batch, then encodes, compresses,
builds the signed request and fires it. The two external effects — the
primary block compressor and the HTTP transport — enter as an environment;
the pipeline records each stage it performs so that "no work" is visible. -/

inductive Step where
  | encode
  | compressStep
  | buildRequest
  | fire
deriving DecidableEq

/-- The externally supplied outcomes: the primary compressor's result and
the transport's response (or transport error). -/
structure Env where
  primary : Except String (List Nat)
  response : Except String Response

/-- The outcome of one `WriteMessage` call, mirroring §4's terminal states. -/
inductive Outcome where
  | ok
  | compressErr (e : String)
  | transportErr (e : String)
  | vendorErr (e : AliyunError)
  | responseDecodeErr (e : String)
deriving DecidableEq

def ofValidate : ValidateResult → Outcome
  | .ok => .ok
  | .vendor e => .vendorErr e
  | .decodeFail e => .responseDecodeErr e

/-- `WriteMessage`: empty batch returns nil immediately; otherwise encode,
compress, build the request and fire it, validating the response. The
second component lists the pipeline stages that ran. -/
def writeMessage (w : WriterCfg) (env : Env) (msgs : List Message) :
    Outcome × List Step :=
  if msgs.length = 0 then (.ok, [])
  else
    let raw := writerEncode w msgs
    match compress raw env.primary with
    | .error e => (.compressErr e, [.encode, .compressStep])
    | .ok _data =>
      match env.response with
      | .error e =>
        (.transportErr e, [.encode, .compressStep, .buildRequest, .fire])
      | .ok resp =>
        (ofValidate (validateResponse resp),
          [.encode, .compressStep, .buildRequest, .fire])

/-- C7. `WriteMessage` with zero messages returns no error and performs no
work — no encoding, compression, request construction or network call —
whatever the writer configuration and however the compressor and transport
would have behaved. -/
theorem writeMessage_empty (w : WriterCfg) (env : Env) :
    writeMessage w env [] = (.ok, []) := rfl

end Slsh
